import Mathlib

/-!
# Verification of the dictionary-graph engine

Shallow embedding of `graph.py` (`GraphWriter`, `GraphReader`) and the
morphological-resolution pass of `dictionary_graph.py`
(`DictionaryGraph.build_opted`), together with theorems settling the
specification claims about them.

Modelling conventions:
* SQLite tables become lists of rows: the `vertices` table is a list of
  `(id, value)` pairs, the `edges` table a list of `(id1, id2)` pairs.
* SQL `UNION` deduplicates; where only membership in the resulting set is
  used downstream the deduplication is irrelevant and lists are kept.
* numpy float arithmetic on the edge weights is modelled over `ℚ`;
  dividing the (positive) weight `1` by a zero count yields IEEE `+inf`
  and a `RuntimeWarning`, not an exception — the non-finite outcome is
  modelled as `none` in `Option ℚ`.
* Python exceptions raised by the reader become `Except.error`.
-/

/-- A persisted graph store: the rows of the `vertices` table as
`(id, value)` pairs and the rows of the `edges` table as `(id1, id2)`
pairs. -/
structure Store where
  vertices : List (Nat × String)
  edges : List (Nat × Nat)
deriving DecidableEq

/-- Well-formedness of a persisted store, as guaranteed by
`GraphWriter.save` on the build pipeline's input: distinct vertex ids,
distinct vertex values, no duplicate `(id1, id2)` edge row (the schema's
`UNIQUE(id1, id2)`), and referential closure of edge endpoints. -/
def Store.WF (s : Store) : Prop :=
  (s.vertices.map Prod.fst).Nodup ∧
  (s.vertices.map Prod.snd).Nodup ∧
  s.edges.Nodup ∧
  ∀ e ∈ s.edges, e.1 ∈ s.vertices.map Prod.fst ∧ e.2 ∈ s.vertices.map Prod.fst

instance (s : Store) : Decidable s.WF := by
  unfold Store.WF; infer_instance

/-! ## Schema management (`Conn`, `GraphWriter.indices`)

`Conn.create_index` (graph.py line 20) always emits
`CREATE INDEX IF NOT EXISTS ...` — it has no way to emit
`CREATE UNIQUE INDEX`, so every index it creates is non-unique. -/

/-- Descriptor of a SQLite index as created by `Conn.create_index`. -/
structure IndexSchema where
  table : String
  columns : List String
  unique : Bool
deriving DecidableEq

/-- `Conn.create_index` (graph.py line 20): the emitted SQL is
`CREATE INDEX IF NOT EXISTS name ON table(cols)`, never
`CREATE UNIQUE INDEX`, hence `unique := false`. -/
def Conn.create_index (table : String) (columns : List String) : IndexSchema :=
  { table := table, columns := columns, unique := false }

/-- `GraphWriter.indices` (graph.py lines 67-71), materialised through
`Conn.create_index` as in `GraphWriter.__init__` (lines 83-84). -/
def GraphWriter.indices : List (String × IndexSchema) :=
  [("vertices_value", Conn.create_index "vertices" ["value"]),
   ("edges_id1", Conn.create_index "edges" ["id1"]),
   ("edges_id2", Conn.create_index "edges" ["id2"])]

/-! ## GraphWriter -/

/-- `GraphWriter.add_adjacencies` (graph.py lines 87-91): merge the set
`j` into the entry for `i` (python set union `|=`), creating the entry
when absent.  The adjacency map (a python `dict` of `set`s) is modelled
as an association list with `Nodup` keys and `Nodup` value lists. -/
def GraphWriter.add_adjacencies (adj : List (String × List String))
    (i : String) (j : List String) : List (String × List String) :=
  if i ∈ adj.map Prod.fst then
    adj.map (fun p => if p.1 = i then (p.1, p.2 ++ j.filter (fun x => decide (x ∉ p.2))) else p)
  else
    adj ++ [(i, j)]

/-- The `(word, reference)` pairs of the adjacency map, as enumerated by
the generator on graph.py line 97. -/
def GraphWriter.adjacencyPairs (adj : List (String × List String)) :
    List (String × String) :=
  adj.flatMap (fun p => p.2.map (fun k => (p.1, k)))

/-- `GraphWriter.save` (graph.py lines 94-105).  `vertices.to_sql` with
`index_label='id'` persists the labels with their positional index
0..n-1 as ids (`labels.enum`); the two inner pandas merges keep exactly
the adjacency pairs whose endpoints both occur among the labels, each
endpoint replaced by the positional id of its label. -/
def GraphWriter.save (adj : List (String × List String))
    (labels : List String) : Store :=
  { vertices := labels.enum
    edges := ((GraphWriter.adjacencyPairs adj).filter
        (fun p => decide (p.1 ∈ labels) && decide (p.2 ∈ labels))).map
        (fun p => (labels.indexOf p.1, labels.indexOf p.2)) }

/-! ## Morphological resolution (dictionary_graph.py lines 90-113) -/

/-- python `s.endswith(suffix)` (the tokens in play are ascii `[a-z]+`). -/
def endsWithPy (s suffix : String) : Bool :=
  suffix.data.isSuffixOf s.data

/-- python `s[:-n]` for `n ≥ 1`. -/
def dropRightPy (s : String) (n : Nat) : String :=
  ⟨s.data.take (s.data.length - n)⟩

/-- python `s[:-n] + c` for a single character `c`. -/
def stemPlus (s : String) (n : Nat) (c : Char) : String :=
  ⟨s.data.take (s.data.length - n) ++ [c]⟩

/-- The rule chain of dictionary_graph.py lines 92-112 applied to one
referenced token `i`: first matching branch wins; `none` means no branch
matched and the token is dropped from the filtered set. -/
def DictionaryGraph.resolve_token (defined nouns verbs : List String)
    (i : String) : Option String :=
  if i ∈ defined then some i
  else if endsWithPy i "s" && decide (dropRightPy i 1 ∈ nouns) then some (dropRightPy i 1)
  else if endsWithPy i "es" && decide (dropRightPy i 2 ∈ nouns) then some (dropRightPy i 2)
  else if endsWithPy i "ves" && decide (stemPlus i 3 'f' ∈ nouns) then some (stemPlus i 3 'f')
  else if endsWithPy i "ies" && decide (stemPlus i 3 'y' ∈ nouns) then some (stemPlus i 3 'y')
  else if endsWithPy i "d" && decide (dropRightPy i 1 ∈ verbs) then some (dropRightPy i 1)
  else if endsWithPy i "ed" && decide (dropRightPy i 2 ∈ verbs) then some (dropRightPy i 2)
  else if endsWithPy i "ied" && decide (stemPlus i 3 'y' ∈ verbs) then some (stemPlus i 3 'y')
  else if endsWithPy i "ing" && decide (dropRightPy i 3 ∈ verbs) then some (dropRightPy i 3)
  else none

/-- dictionary_graph.py lines 90-113 applied to one definition's
referenced-token set: each token is resolved by the rule chain, the
unresolved ones are dropped, and the results form a python `set`
(modelled as a deduplicated list). -/
def DictionaryGraph.filtered_words (defined nouns verbs : List String)
    (ws : List String) : List String :=
  (ws.filterMap (DictionaryGraph.resolve_token defined nouns verbs)).dedup

/-! ## GraphReader -/

/-- Errors raised by `GraphReader.neighbourhood`: the explicit
`Exception('Vertex does not exist')` of graph.py line 141, and the
`UnboundLocalError` a method outside {1,2,3} runs into at line 160-171
(no branch assigns `vertices`). -/
inductive GraphError
  | notFound
  | invalidMethod
deriving DecidableEq

/-- graph.py line 139: `SELECT id FROM vertices WHERE value=?` with
`fetchone` — the id of the first row whose value matches. -/
def GraphReader.lookupId (s : Store) (value : String) : Option Nat :=
  (s.vertices.find? (fun p => p.2 == value)).map Prod.fst

/-- `SELECT id1 FROM edges WHERE id2=w`. -/
def GraphReader.preds (s : Store) (w : Nat) : List Nat :=
  (s.edges.filter (fun e => e.2 == w)).map Prod.fst

/-- `SELECT id2 FROM edges WHERE id1=w`. -/
def GraphReader.succs (s : Store) (w : Nat) : List Nat :=
  (s.edges.filter (fun e => e.1 == w)).map Prod.snd

/-- The method-1/3 temporary view (graph.py lines 146-149):
predecessors `UNION` successors `UNION VALUES(w)`. -/
def GraphReader.candidateIds (s : Store) (w : Nat) : List Nat :=
  (GraphReader.preds s w ++ GraphReader.succs s w ++ [w]).dedup

/-- The inner one-hop set of the method-2 view (graph.py line 154):
predecessors `UNION` successors, without `w`. -/
def GraphReader.neighbourIds (s : Store) (w : Nat) : List Nat :=
  (GraphReader.preds s w ++ GraphReader.succs s w).dedup

/-- `COUNT(id1)` of the group `id2 = v` in
`SELECT id2, COUNT(id1) FROM edges WHERE id2 IN view GROUP BY id2`:
the `WHERE` keeps rows whose target lies in `view`, the group collects
those with target `v`. -/
def GraphReader.groupCount (s : Store) (view : List Nat) (v : Nat) : Nat :=
  ((s.edges.filter (fun e => decide (e.2 ∈ view))).filter (fun e => e.2 == v)).length

/-- The rows `(id2, COUNT(id1))` produced by the grouped query: one row
per distinct `id2` value actually occurring among the kept edges — a
target in `view` with no incoming edge yields no row. -/
def GraphReader.groupRows (s : Store) (view : List Nat) : List (Nat × Nat) :=
  (((s.edges.filter (fun e => decide (e.2 ∈ view))).map Prod.snd).dedup).map
    (fun v => (v, GraphReader.groupCount s view v))

/-- The method-2 view (graph.py lines 151-157): ids of the grouped rows
over the one-hop set with `count < 1000`, `UNION VALUES(w)`. -/
def GraphReader.prunedIds (s : Store) (w : Nat) : List Nat :=
  ((GraphReader.groupRows s (GraphReader.neighbourIds s w)).filter
      (fun p => decide (p.2 < 1000))).map Prod.fst ++ [w]

/-- Global indegree of `v`: `COUNT` of all persisted edges with target
`v` (the reader's `indegrees()` aggregate, graph.py lines 126-131). -/
def GraphReader.indegreeAll (s : Store) (v : Nat) : Nat :=
  (s.edges.filter (fun e => e.2 == v)).length

/-- The `LEFT JOIN` of graph.py lines 165-171 looked up at a vertex id:
the `count` column of the grouped subquery, `NULL` (here `none`) when
the id has no row there. -/
def GraphReader.countLookup (s : Store) (view : List Nat) (v : Nat) : Option Nat :=
  ((GraphReader.groupRows s view).find? (fun p => p.1 == v)).map Prod.snd

/-- The transform applied to the `count` column on graph.py lines
179-180: the supplied `f`, or the identity when `f is None`. -/
def applyTransform (f : Option (Nat → ℚ)) (c : Nat) : ℚ :=
  match f with
  | none => (c : ℚ)
  | some g => g c

/-- graph.py lines 177-181: the weight of one selected edge.  Methods 1
and 2 leave the `np.ones` weight at `1`.  Method 3 divides it by the
(transformed) count of the edge's target; numpy float division of the
positive `1` by `0` yields IEEE `+inf` with a `RuntimeWarning` — no
exception — modelled as `none`; a `NULL`/NaN count likewise gives a
non-finite result (`none`), unreachable for selected edges. -/
def GraphReader.edgeWeight (s : Store) (view : List Nat) (method : Nat)
    (f : Option (Nat → ℚ)) (e : Nat × Nat) : Option ℚ :=
  if method = 3 then
    match GraphReader.countLookup s view e.2 with
    | none => none
    | some c => if applyTransform f c = 0 then none else some (1 / applyTransform f c)
  else some 1

/-- The view whose members the vertex/edge selections test: method 2
uses the pruned view, methods 1 and 3 the candidate view. -/
def GraphReader.selectedIds (s : Store) (w : Nat) (method : Nat) : List Nat :=
  if method = 2 then GraphReader.prunedIds s w else GraphReader.candidateIds s w

/-- graph.py lines 160-171: `SELECT vertices.id, vertices.value FROM
vertices JOIN view ON vertices.id = view.id` — the vertex rows whose id
lies in the view, in table order. -/
def GraphReader.selVerts (s : Store) (view : List Nat) : List (Nat × String) :=
  s.vertices.filter (fun p => decide (p.1 ∈ view))

/-- graph.py line 174: `SELECT * FROM edges WHERE id1 IN view AND id2 IN
view`. -/
def GraphReader.selEdges (s : Store) (view : List Nat) : List (Nat × Nat) :=
  s.edges.filter (fun e => decide (e.1 ∈ view) && decide (e.2 ∈ view))

/-- The `value` column of the vertex row with a given id
(`SELECT value FROM vertices WHERE id=?`), used to phrase the
correspondence between matrix coordinates and vertex labels. -/
def GraphReader.valueOf (s : Store) (id : Nat) : Option String :=
  (s.vertices.find? (fun p => p.1 == id)).map Prod.snd

/-- The pair returned by `neighbourhood` (graph.py lines 183-193): the
new-index → word mapping (`vertices.set_index('i')['value']`, position =
new index) and the `csr_matrix` given by its explicitly stored entries
`(row, col, weight)` over the n×n index space, zero elsewhere. -/
structure NbhdResult where
  labels : List String
  entries : List (Nat × Nat × Option ℚ)
deriving DecidableEq

/-- graph.py lines 159-193 for a fixed view: the selected vertex rows
give the labels (`vertices.set_index('i')['value']`, position = new
index), and each selected edge becomes the stored matrix entry
`(row, col, weight)` where an endpoint's coordinate is the position of
its id among the selected vertex ids
(`edges['id1'].map(vertices['i'])` with `vertices['i'] = np.arange`). -/
def GraphReader.mkResult (s : Store) (view : List Nat) (method : Nat)
    (f : Option (Nat → ℚ)) : NbhdResult :=
  { labels := (GraphReader.selVerts s view).map Prod.snd
    entries := (GraphReader.selEdges s view).map
      (fun e =>
        (((GraphReader.selVerts s view).map Prod.fst).indexOf e.1,
         ((GraphReader.selVerts s view).map Prod.fst).indexOf e.2,
         GraphReader.edgeWeight s view method f e)) }

/-- `GraphReader.neighbourhood` (graph.py lines 138-193).  The reader
only executes `SELECT`s and creates a temporary view; the persisted
`vertices`/`edges` tables are never written. -/
def GraphReader.neighbourhood (s : Store) (value : String) (method : Nat)
    (f : Option (Nat → ℚ)) : Except GraphError NbhdResult :=
  match GraphReader.lookupId s value with
  | none => Except.error GraphError.notFound
  | some w =>
    if method = 1 ∨ method = 2 ∨ method = 3 then
      Except.ok (GraphReader.mkResult s (GraphReader.selectedIds s w method) method f)
    else Except.error GraphError.invalidMethod

/-! ## Helper lemmas -/

/-- Ids of the selected vertex rows: a vertex id is selected iff it is
an id of the table and lies in the view. -/
lemma mem_selVerts_map_fst (s : Store) (view : List Nat) {id : Nat} :
    id ∈ (GraphReader.selVerts s view).map Prod.fst ↔
      id ∈ s.vertices.map Prod.fst ∧ id ∈ view := by
  unfold GraphReader.selVerts
  simp only [List.mem_map, List.mem_filter]
  constructor
  · rintro ⟨p, ⟨hp, hv⟩, rfl⟩
    exact ⟨⟨p, hp, rfl⟩, of_decide_eq_true hv⟩
  · rintro ⟨⟨p, hp, rfl⟩, hv⟩
    exact ⟨p, ⟨hp, decide_eq_true hv⟩, rfl⟩

/-- The group count over targets restricted to the view equals the
global indegree whenever the grouped target lies in the view: the
`WHERE id2 IN view` clause only selects the group, it does not restrict
the edges counted inside it. -/
lemma groupCount_eq_indegreeAll (s : Store) (view : List Nat) (v : Nat)
    (hv : v ∈ view) :
    GraphReader.groupCount s view v = GraphReader.indegreeAll s v := by
  unfold GraphReader.groupCount GraphReader.indegreeAll
  rw [List.filter_filter]
  congr 1
  apply List.filter_congr
  intro e _
  by_cases h : e.2 = v
  · simp [h, hv]
  · simp [h]

/-- `find?` on a keyed map built over a list containing `j` returns the
row keyed by `j`. -/
lemma find?_keyed_map {g : Nat → Nat} {l : List Nat} {j : Nat} (hj : j ∈ l) :
    (l.map (fun v => (v, g v))).find? (fun p => p.1 == j) = some (j, g j) := by
  induction l with
  | nil => cases hj
  | cons a t ih =>
    by_cases h : a = j
    · subst h
      simp only [List.map_cons]
      exact List.find?_cons_of_pos _ (by simp)
    · rcases List.mem_cons.mp hj with h' | h'
      · exact absurd h'.symm h
      · simp only [List.map_cons]
        rw [List.find?_cons_of_neg _ (by simp [h])]
        exact ih h'

/-- The `LEFT JOIN`ed count column at the target of a persisted edge
whose target lies in the view is the global indegree of that target. -/
lemma countLookup_eq (s : Store) (view : List Nat) {e : Nat × Nat}
    (he : e ∈ s.edges) (hv : e.2 ∈ view) :
    GraphReader.countLookup s view e.2 = some (GraphReader.indegreeAll s e.2) := by
  unfold GraphReader.countLookup GraphReader.groupRows
  have hmem : e.2 ∈ ((s.edges.filter (fun x => decide (x.2 ∈ view))).map Prod.snd).dedup := by
    rw [List.mem_dedup]
    exact List.mem_map.mpr ⟨e, List.mem_filter.mpr ⟨he, decide_eq_true hv⟩, rfl⟩
  rw [find?_keyed_map hmem]
  simp [groupCount_eq_indegreeAll s view e.2 hv]

/-- With distinct vertex ids, `valueOf` at the id of a table row yields
that row's value. -/
lemma valueOf_eq (s : Store) (hids : (s.vertices.map Prod.fst).Nodup)
    {p : Nat × String} (hp : p ∈ s.vertices) :
    GraphReader.valueOf s p.1 = some p.2 := by
  unfold GraphReader.valueOf
  have hsome : (s.vertices.find? (fun q => q.1 == p.1)).isSome := by
    rw [List.find?_isSome]
    exact ⟨p, hp, by simp⟩
  rcases Option.isSome_iff_exists.mp hsome with ⟨q, hq⟩
  have hq1 : q.1 = p.1 := by simpa using List.find?_some hq
  have hqmem : q ∈ s.vertices := List.mem_of_find?_eq_some hq
  have hqp : q = p := List.inj_on_of_nodup_map hids hqmem hp hq1
  rw [hq, hqp]
  rfl

/-- With distinct vertex values, a table row's value occurs among the
selected labels iff the row's id lies in the view. -/
lemma mem_labels_iff (s : Store) (view : List Nat)
    (hvals : (s.vertices.map Prod.snd).Nodup) {p : Nat × String}
    (hp : p ∈ s.vertices) :
    p.2 ∈ (GraphReader.selVerts s view).map Prod.snd ↔ p.1 ∈ view := by
  unfold GraphReader.selVerts
  constructor
  · intro h
    rcases List.mem_map.mp h with ⟨q, hq, hq2⟩
    rcases List.mem_filter.mp hq with ⟨hq1, hq3⟩
    have hqp : q = p := List.inj_on_of_nodup_map hvals hq1 hp hq2
    rw [hqp] at hq3
    exact of_decide_eq_true hq3
  · intro h
    exact List.mem_map.mpr ⟨p, List.mem_filter.mpr ⟨hp, decide_eq_true h⟩, rfl⟩

/-- The label at the matrix coordinate assigned to a selected vertex id
is that vertex's value: the reindexing of the labels and of the matrix
coordinates agree. -/
lemma labels_getElem_indexOf (s : Store) (view : List Nat)
    (hids : (s.vertices.map Prod.fst).Nodup) {id : Nat}
    (hmem : id ∈ (GraphReader.selVerts s view).map Prod.fst) :
    ((GraphReader.selVerts s view).map
        Prod.snd)[((GraphReader.selVerts s view).map Prod.fst).indexOf id]? =
      GraphReader.valueOf s id := by
  have hlt : ((GraphReader.selVerts s view).map Prod.fst).indexOf id <
      ((GraphReader.selVerts s view).map Prod.fst).length :=
    List.indexOf_lt_length.mpr hmem
  have hi : ((GraphReader.selVerts s view).map Prod.fst).indexOf id <
      (GraphReader.selVerts s view).length := by
    simpa using hlt
  have hfst : ((GraphReader.selVerts s view).get ⟨_, hi⟩).1 = id := by
    have h := List.getElem_indexOf hlt
    rw [List.getElem_map] at h
    exact h
  have hmem2 : (GraphReader.selVerts s view).get ⟨_, hi⟩ ∈ s.vertices :=
    List.mem_of_mem_filter (List.getElem_mem hi)
  have hval : GraphReader.valueOf s id =
      some ((GraphReader.selVerts s view).get ⟨_, hi⟩).2 := by
    have h2 := valueOf_eq s hids hmem2
    rw [hfst] at h2
    exact h2
  rw [hval, List.getElem?_map, List.getElem?_eq_getElem hi]
  rfl

/-- Successful unfolding of `neighbourhood` when the word is present and
the method is one of 1, 2, 3. -/
lemma neighbourhood_ok_eq (s : Store) (value : String) (method : Nat)
    (f : Option (Nat → ℚ)) (w : Nat)
    (hw : GraphReader.lookupId s value = some w)
    (hm : method = 1 ∨ method = 2 ∨ method = 3) :
    GraphReader.neighbourhood s value method f =
      Except.ok (GraphReader.mkResult s (GraphReader.selectedIds s w method) method f) := by
  unfold GraphReader.neighbourhood
  rw [hw]
  simp [hm]

/-! ## Concrete stores and adjacency maps used as witnesses -/

/-- The end-to-end example of the spec: dog→animal, animal→dog,
cat→animal, as persisted by the build (ids by position). -/
def exStore : Store :=
  { vertices := [(0, "dog"), (1, "animal"), (2, "cat")]
    edges := [(0, 1), (1, 0), (2, 1)] }

/-- A two-vertex store with the single edge a→b. -/
def twoStore : Store :=
  { vertices := [(0, "a"), (1, "b")], edges := [(0, 1)] }

/-- The adjacency map of the spec's end-to-end example (with one
reference, "zebra", falling outside the defined words). -/
def exAdj : List (String × List String) :=
  [("dog", ["animal", "zebra"]), ("animal", ["dog"]), ("cat", ["animal"])]

/-! ## C5 — morphological resolution -/

/-- C5: the rule chain resolves each referenced token by its first
matching rule and drops unmatched tokens: with defined headwords
{car, city, play} (disjoint from the tokens), nouns {car, city} and
verbs {play}, the tokens {cars, cities, playing, xyz} resolve to exactly
{car, city, play}; moreover a token that is itself defined is kept
unchanged even when a later rule also matches (first match wins). -/
theorem morphological_resolution_chain :
    DictionaryGraph.filtered_words ["car", "city", "play"] ["car", "city"] ["play"]
        ["cars", "cities", "playing", "xyz"] = ["car", "city", "play"] ∧
    DictionaryGraph.resolve_token ["cars"] ["car"] [] "cars" = some "cars" := by
  decide

/-! ## C6 — unknown word -/

/-- C6: when no vertex has the requested value, `neighbourhood` fails
with the lookup error for every method in {1,2,3}, returning no partial
result; the reader never writes the persisted tables (it is a pure
function of the store in this embedding, matching the SELECT-only
source). -/
theorem neighbourhood_unknown_word (s : Store) (value : String)
    (f : Option (Nat → ℚ)) (method : Nat)
    (h : ∀ p ∈ s.vertices, p.2 ≠ value)
    (hm : method = 1 ∨ method = 2 ∨ method = 3) :
    GraphReader.neighbourhood s value method f = Except.error GraphError.notFound := by
  have hlk : GraphReader.lookupId s value = none := by
    unfold GraphReader.lookupId
    rw [List.find?_eq_none.mpr]
    · rfl
    · intro p hp
      simpa using h p hp
  unfold GraphReader.neighbourhood
  rw [hlk]

/-- Witness for C6: "doesnotexist" is absent from the example store and
its method-2 lookup fails. -/
theorem neighbourhood_unknown_word_witness :
    (∀ p ∈ exStore.vertices, p.2 ≠ "doesnotexist") ∧
    GraphReader.neighbourhood exStore "doesnotexist" 2 none =
      Except.error GraphError.notFound :=
  ⟨by decide,
   neighbourhood_unknown_word exStore "doesnotexist" none 2 (by decide)
     (Or.inr (Or.inl rfl))⟩

/-! ## C3 — zero transformed indegree -/

/-- C3 counterexample: with the transform f ≡ 0 every transformed
indegree is zero, yet `neighbourhood` does not fail — numpy float
division of the weights by zero yields +inf (`none` here) and the call
returns a complete result containing those edges. -/
theorem neighbourhood3_zero_divisor_cex :
    GraphReader.neighbourhood exStore "animal" 3 (some (fun _ => 0)) =
      Except.ok { labels := ["dog", "animal", "cat"]
                  entries := [(0, 1, none), (1, 0, none), (2, 1, none)] } := by
  rfl

/-- C3 amended: when the word has a vertex, method 3 never raises,
whatever the transform; it returns a result in which any edge whose
target's transformed indegree is zero carries a non-finite (+inf)
weight, modelled as `none`. -/
theorem neighbourhood3_zero_divisor_no_error (s : Store) (value : String)
    (f : Option (Nat → ℚ)) (w : Nat)
    (hw : GraphReader.lookupId s value = some w) :
    ∃ r, GraphReader.neighbourhood s value 3 f = Except.ok r ∧
      ∀ t ∈ r.entries, ∃ e ∈ s.edges,
        e.1 ∈ GraphReader.candidateIds s w ∧ e.2 ∈ GraphReader.candidateIds s w ∧
        (applyTransform f (GraphReader.indegreeAll s e.2) = 0 → t.2.2 = none) := by
  refine ⟨_, neighbourhood_ok_eq s value 3 f w hw (Or.inr (Or.inr rfl)), ?_⟩
  intro t ht
  have hview : GraphReader.selectedIds s w 3 = GraphReader.candidateIds s w := by
    unfold GraphReader.selectedIds
    simp
  unfold GraphReader.mkResult at ht
  rw [hview] at ht
  simp only [List.mem_map] at ht
  rcases ht with ⟨e, he, rfl⟩
  have heE : e ∈ s.edges := List.mem_of_mem_filter he
  have hcond := (List.mem_filter.mp he).2
  rw [Bool.and_eq_true] at hcond
  have h1 : e.1 ∈ GraphReader.candidateIds s w := of_decide_eq_true hcond.1
  have h2 : e.2 ∈ GraphReader.candidateIds s w := of_decide_eq_true hcond.2
  refine ⟨e, heE, h1, h2, ?_⟩
  intro h0
  unfold GraphReader.edgeWeight
  rw [if_pos rfl, countLookup_eq s _ heE h2]
  simp [h0]

/-- Witness for C3's amended theorem at the example store with f ≡ 0. -/
theorem neighbourhood3_zero_divisor_no_error_witness :
    GraphReader.lookupId exStore "animal" = some 1 ∧
    (∃ r, GraphReader.neighbourhood exStore "animal" 3 (some (fun _ => 0)) =
        Except.ok r ∧
      ∀ t ∈ r.entries, ∃ e ∈ exStore.edges,
        e.1 ∈ GraphReader.candidateIds exStore 1 ∧
        e.2 ∈ GraphReader.candidateIds exStore 1 ∧
        (applyTransform (some (fun _ => 0)) (GraphReader.indegreeAll exStore e.2) = 0 →
          t.2.2 = none)) :=
  ⟨by decide,
   neighbourhood3_zero_divisor_no_error exStore "animal" (some (fun _ => 0)) 1 (by decide)⟩

/-! ## C9 — uniqueness invariant -/

/-- C9 counterexample: the index the writer creates on
`vertices.value` is emitted by `Conn.create_index` as a plain
`CREATE INDEX` — the schema does not maintain a *unique* index on the
value column. -/
theorem vertices_value_index_not_unique :
    (GraphWriter.indices.find? (fun p => p.1 == "vertices_value")).map
        (fun p => p.2.unique) = some false := by
  decide

/-- The `(word, reference)` pairs of a dict-of-sets adjacency map
(distinct keys, duplicate-free reference sets) are pairwise distinct. -/
lemma adjacencyPairs_nodup (adj : List (String × List String))
    (hk : (adj.map Prod.fst).Nodup) (hv : ∀ p ∈ adj, p.2.Nodup) :
    (GraphWriter.adjacencyPairs adj).Nodup := by
  unfold GraphWriter.adjacencyPairs
  rw [List.nodup_flatMap]
  constructor
  · intro p hp
    exact (hv p hp).map (fun a b h => congrArg Prod.snd h)
  · have hpw : List.Pairwise (fun p q : String × List String => p.1 ≠ q.1) adj :=
      List.pairwise_map.mp hk
    refine hpw.imp ?_
    intro p q hne x hx1 hx2
    rcases List.mem_map.mp hx1 with ⟨k1, _, rfl⟩
    rcases List.mem_map.mp hx2 with ⟨k2, _, he⟩
    exact hne (congrArg Prod.fst he).symm

/-- C9 amended: `save` on a dict-of-sets adjacency map and a
duplicate-free label list produces a store in which vertex values are
unique and `(id1, id2)` pairs are unique (together with distinct ids
and referential closure) — the uniqueness is enforced by construction,
not by the schema, whose index on `vertices.value` is non-unique; the
reader operations are pure functions of the store and trivially
preserve the invariant. -/
theorem save_uniqueness_invariant (adj : List (String × List String))
    (labels : List String) (hk : (adj.map Prod.fst).Nodup)
    (hv : ∀ p ∈ adj, p.2.Nodup) (hl : labels.Nodup) :
    (GraphWriter.save adj labels).WF := by
  refine ⟨?_, ?_, ?_, ?_⟩
  · rw [show (GraphWriter.save adj labels).vertices = labels.enum from rfl,
      List.enum_map_fst]
    exact List.nodup_range _
  · rw [show (GraphWriter.save adj labels).vertices = labels.enum from rfl,
      List.enum_map_snd]
    exact hl
  · apply List.Nodup.map_on
    · intro x hx y hy hxy
      have hxc := (List.mem_filter.mp hx).2
      have hyc := (List.mem_filter.mp hy).2
      rw [Bool.and_eq_true] at hxc hyc
      have hx1 : x.1 ∈ labels := of_decide_eq_true hxc.1
      have hx2 : x.2 ∈ labels := of_decide_eq_true hxc.2
      have hy1 : y.1 ∈ labels := of_decide_eq_true hyc.1
      have hy2 : y.2 ∈ labels := of_decide_eq_true hyc.2
      have h1 : labels.indexOf x.1 = labels.indexOf y.1 := congrArg Prod.fst hxy
      have h2 : labels.indexOf x.2 = labels.indexOf y.2 := congrArg Prod.snd hxy
      have e1 : x.1 = y.1 := (List.indexOf_inj hx1 hy1).mp h1
      have e2 : x.2 = y.2 := (List.indexOf_inj hx2 hy2).mp h2
      exact Prod.ext e1 e2
    · exact (adjacencyPairs_nodup adj hk hv).filter _
  · intro e he
    rcases List.mem_map.mp he with ⟨p, hp, rfl⟩
    have hcond := (List.mem_filter.mp hp).2
    rw [Bool.and_eq_true] at hcond
    have hp1 : p.1 ∈ labels := of_decide_eq_true hcond.1
    have hp2 : p.2 ∈ labels := of_decide_eq_true hcond.2
    constructor
    · rw [show (GraphWriter.save adj labels).vertices = labels.enum from rfl,
        List.enum_map_fst, List.mem_range]
      exact List.indexOf_lt_length.mpr hp1
    · rw [show (GraphWriter.save adj labels).vertices = labels.enum from rfl,
        List.enum_map_fst, List.mem_range]
      exact List.indexOf_lt_length.mpr hp2

/-- Witness for C9's amended theorem: saving the example adjacency map
over its defined words yields a store satisfying the invariant. -/
theorem save_uniqueness_invariant_witness :
    ((exAdj.map Prod.fst).Nodup ∧ (∀ p ∈ exAdj, p.2.Nodup) ∧
      (["dog", "animal", "cat"] : List String).Nodup) ∧
    (GraphWriter.save exAdj ["dog", "animal", "cat"]).WF :=
  ⟨⟨by decide, by decide, by decide⟩,
   save_uniqueness_invariant exAdj ["dog", "animal", "cat"]
     (by decide) (by decide) (by decide)⟩

/-! ## C1 — method 2 vertex set -/

/-- Membership in the method-2 view: besides `w` itself, a vertex id is
kept iff it is a one-hop neighbour of `w` whose **global** indegree
(counting all persisted edges into it, sources unrestricted) is at
least 1 — the `GROUP BY` produces no row for a target with no incoming
edge — and below 1000. -/
lemma mem_prunedIds_iff (s : Store) (w x : Nat) :
    x ∈ GraphReader.prunedIds s w ↔
      ((x ∈ GraphReader.neighbourIds s w ∧ 1 ≤ GraphReader.indegreeAll s x ∧
        GraphReader.indegreeAll s x < 1000) ∨ x = w) := by
  unfold GraphReader.prunedIds
  rw [List.mem_append]
  simp only [List.mem_singleton]
  constructor
  · rintro (h | h)
    · left
      rcases List.mem_map.mp h with ⟨row, hrow, rfl⟩
      rcases List.mem_filter.mp hrow with ⟨hrow1, hrow2⟩
      unfold GraphReader.groupRows at hrow1
      rcases List.mem_map.mp hrow1 with ⟨v, hvmem, rfl⟩
      rw [List.mem_dedup] at hvmem
      rcases List.mem_map.mp hvmem with ⟨e, hef, he2⟩
      rcases List.mem_filter.mp hef with ⟨heE, heview⟩
      have hN : v ∈ GraphReader.neighbourIds s w := by
        rw [← he2]
        exact of_decide_eq_true heview
      have hcnt : GraphReader.groupCount s (GraphReader.neighbourIds s w) v =
          GraphReader.indegreeAll s v := groupCount_eq_indegreeAll _ _ _ hN
      have hlt : GraphReader.groupCount s (GraphReader.neighbourIds s w) v < 1000 :=
        of_decide_eq_true hrow2
      refine ⟨hN, ?_, ?_⟩
      · show 1 ≤ GraphReader.indegreeAll s v
        unfold GraphReader.indegreeAll
        have hmem : e ∈ s.edges.filter (fun e' => e'.2 == v) :=
          List.mem_filter.mpr ⟨heE, by simp [he2]⟩
        have hpos : 0 < (s.edges.filter (fun e' => e'.2 == v)).length :=
          List.length_pos.mpr (List.ne_nil_of_mem hmem)
        omega
      · show GraphReader.indegreeAll s v < 1000
        rw [← hcnt]
        exact hlt
    · right; exact h
  · rintro (⟨hN, hpos, hlt⟩ | rfl)
    · left
      apply List.mem_map.mpr
      refine ⟨(x, GraphReader.groupCount s (GraphReader.neighbourIds s w) x), ?_, rfl⟩
      apply List.mem_filter.mpr
      refine ⟨?_, ?_⟩
      · unfold GraphReader.groupRows
        apply List.mem_map.mpr
        refine ⟨x, ?_, rfl⟩
        rw [List.mem_dedup]
        unfold GraphReader.indegreeAll at hpos
        have hne : s.edges.filter (fun e => e.2 == x) ≠ [] := by
          intro hnil
          rw [hnil] at hpos
          simp at hpos
        rcases List.exists_mem_of_ne_nil _ hne with ⟨e, he⟩
        rcases List.mem_filter.mp he with ⟨heE, hex⟩
        have hex' : e.2 = x := by simpa using hex
        exact List.mem_map.mpr
          ⟨e, List.mem_filter.mpr ⟨heE, by simp [hex', hN]⟩, hex'⟩
      · have hc : GraphReader.groupCount s (GraphReader.neighbourIds s w) x < 1000 := by
          rw [groupCount_eq_indegreeAll _ _ _ hN]
          exact hlt
        exact decide_eq_true hc
    · right; rfl

/-- C1 counterexample: in the store with the single edge a→b, querying
"b" with method 2 must — per the claim — retain vertex a, which lies in
the candidate set and has (restricted and global) indegree 0 < 1000;
the code instead returns only {b}: the GROUP BY emits no row for a
vertex with no incoming edges at all, so a is silently dropped. -/
theorem neighbourhood_method2_restricted_indegree_cex :
    GraphReader.neighbourhood twoStore "b" 2 none =
      Except.ok { labels := ["b"], entries := [] } ∧
    GraphReader.lookupId twoStore "b" = some 1 ∧
    (0, "a") ∈ twoStore.vertices ∧
    0 ∈ GraphReader.candidateIds twoStore 1 ∧
    GraphReader.indegreeAll twoStore 0 = 0 :=
  ⟨by rfl, by decide, by decide, by decide, by decide⟩

/-- C1 amended: for a persisted graph and a word with vertex `w`,
`neighbourhood(word, 2)` returns the vertex set
`{v ∈ predecessors(w) ∪ successors(w) : 1 ≤ globalIndegree(v) < 1000} ∪ {w}`:
the indegree used for pruning is the **global** one (all persisted
edges with target `v`, sources not restricted to the candidate set),
and a candidate other than `w` with no incoming edge at all is
excluded, not included; `w` is always retained. -/
theorem neighbourhood_method2_vertex_set (s : Store) (value : String)
    (f : Option (Nat → ℚ)) (w : Nat) (r : NbhdResult)
    (hWF : s.WF) (hw : GraphReader.lookupId s value = some w)
    (hr : GraphReader.neighbourhood s value 2 f = Except.ok r) :
    ∀ p ∈ s.vertices, (p.2 ∈ r.labels ↔
      (p.1 = w ∨ (p.1 ∈ GraphReader.neighbourIds s w ∧
        1 ≤ GraphReader.indegreeAll s p.1 ∧
        GraphReader.indegreeAll s p.1 < 1000))) := by
  obtain ⟨hids, hvals, hedges, hclosed⟩ := hWF
  have hok := neighbourhood_ok_eq s value 2 f w hw (Or.inr (Or.inl rfl))
  rw [hok] at hr
  have hr' : r = GraphReader.mkResult s (GraphReader.selectedIds s w 2) 2 f :=
    (Except.ok.inj hr).symm
  subst hr'
  intro p hp
  have hview : GraphReader.selectedIds s w 2 = GraphReader.prunedIds s w := by
    unfold GraphReader.selectedIds
    simp
  have hlab : (GraphReader.mkResult s (GraphReader.selectedIds s w 2) 2 f).labels =
      (GraphReader.selVerts s (GraphReader.prunedIds s w)).map Prod.snd := by
    rw [← hview]
    rfl
  rw [hlab, mem_labels_iff s _ hvals hp, mem_prunedIds_iff]
  tauto

/-- Witness for C1's amended theorem on the example store: method 2
around "animal" keeps dog (indegree 1) and animal, and drops cat
(indegree 0). -/
theorem neighbourhood_method2_vertex_set_witness :
    (exStore.WF ∧ GraphReader.lookupId exStore "animal" = some 1) ∧
    (∀ p ∈ exStore.vertices,
      (p.2 ∈ (NbhdResult.mk ["dog", "animal"] [(0, 1, some 1), (1, 0, some 1)]).labels ↔
        (p.1 = 1 ∨ (p.1 ∈ GraphReader.neighbourIds exStore 1 ∧
          1 ≤ GraphReader.indegreeAll exStore p.1 ∧
          GraphReader.indegreeAll exStore p.1 < 1000)))) :=
  ⟨⟨by decide, by decide⟩,
   neighbourhood_method2_vertex_set exStore "animal" none 1
     (NbhdResult.mk ["dog", "animal"] [(0, 1, some 1), (1, 0, some 1)])
     (by decide) (by decide) (by rfl)⟩

/-! ## C8 — method 1 -/

/-- An edge row is selected iff it is persisted and both endpoints lie
in the view. -/
lemma mem_selEdges (s : Store) (view : List Nat) {e : Nat × Nat} :
    e ∈ GraphReader.selEdges s view ↔ e ∈ s.edges ∧ e.1 ∈ view ∧ e.2 ∈ view := by
  unfold GraphReader.selEdges
  rw [List.mem_filter, Bool.and_eq_true]
  constructor
  · rintro ⟨h1, h2, h3⟩
    exact ⟨h1, of_decide_eq_true h2, of_decide_eq_true h3⟩
  · rintro ⟨h1, h2, h3⟩
    exact ⟨h1, decide_eq_true h2, decide_eq_true h3⟩

/-- Both endpoints of a selected edge occur among the selected vertex
ids, given referential closure of the store. -/
lemma selEdges_endpoints_mem (s : Store) (view : List Nat)
    (hclosed : ∀ e ∈ s.edges, e.1 ∈ s.vertices.map Prod.fst ∧
      e.2 ∈ s.vertices.map Prod.fst)
    {e : Nat × Nat} (he : e ∈ GraphReader.selEdges s view) :
    e.1 ∈ (GraphReader.selVerts s view).map Prod.fst ∧
    e.2 ∈ (GraphReader.selVerts s view).map Prod.fst := by
  rcases (mem_selEdges s view).mp he with ⟨heE, h1, h2⟩
  exact ⟨(mem_selVerts_map_fst s view).mpr ⟨(hclosed e heE).1, h1⟩,
    (mem_selVerts_map_fst s view).mpr ⟨(hclosed e heE).2, h2⟩⟩

/-- C8: method 1 returns the full ego-network: a vertex value is in the
returned labels iff its id lies in the candidate set
{w} ∪ predecessors(w) ∪ successors(w); the matrix's stored entries are
in bijection with the persisted edges having both endpoints in the
candidate set (one entry each, at pairwise distinct coordinates), and
every stored entry equals 1. -/
theorem neighbourhood_method1_full_ego (s : Store) (value : String)
    (f : Option (Nat → ℚ)) (w : Nat) (r : NbhdResult)
    (hWF : s.WF) (hw : GraphReader.lookupId s value = some w)
    (hr : GraphReader.neighbourhood s value 1 f = Except.ok r) :
    (∀ p ∈ s.vertices, (p.2 ∈ r.labels ↔ p.1 ∈ GraphReader.candidateIds s w)) ∧
    r.entries.length = (GraphReader.selEdges s (GraphReader.candidateIds s w)).length ∧
    (∀ t ∈ r.entries, t.2.2 = some 1) ∧
    (r.entries.map (fun t => (t.1, t.2.1))).Nodup := by
  obtain ⟨hids, hvals, hedges, hclosed⟩ := hWF
  have hok := neighbourhood_ok_eq s value 1 f w hw (Or.inl rfl)
  rw [hok] at hr
  have hr' : r = GraphReader.mkResult s (GraphReader.selectedIds s w 1) 1 f :=
    (Except.ok.inj hr).symm
  subst hr'
  have hview : GraphReader.selectedIds s w 1 = GraphReader.candidateIds s w := by
    unfold GraphReader.selectedIds
    simp
  rw [hview]
  refine ⟨?_, ?_, ?_, ?_⟩
  · intro p hp
    exact mem_labels_iff s _ hvals hp
  · exact List.length_map _ _
  · intro t ht
    rcases List.mem_map.mp ht with ⟨e, _, rfl⟩
    rfl
  · dsimp only [GraphReader.mkResult]
    rw [List.map_map]
    apply List.Nodup.map_on
    · intro x hx y hy hxy
      have hx' := selEdges_endpoints_mem s _ hclosed hx
      have hy' := selEdges_endpoints_mem s _ hclosed hy
      have h1 : (((GraphReader.selVerts s (GraphReader.candidateIds s w)).map
          Prod.fst).indexOf x.1) =
          (((GraphReader.selVerts s (GraphReader.candidateIds s w)).map
          Prod.fst).indexOf y.1) := congrArg Prod.fst hxy
      have h2 : (((GraphReader.selVerts s (GraphReader.candidateIds s w)).map
          Prod.fst).indexOf x.2) =
          (((GraphReader.selVerts s (GraphReader.candidateIds s w)).map
          Prod.fst).indexOf y.2) := congrArg Prod.snd hxy
      exact Prod.ext ((List.indexOf_inj hx'.1 hy'.1).mp h1)
        ((List.indexOf_inj hx'.2 hy'.2).mp h2)
    · exact hedges.filter _

/-- Witness for C8 on the example store around "animal": all three
vertices, one entry of weight 1 per edge, distinct coordinates. -/
theorem neighbourhood_method1_full_ego_witness :
    (exStore.WF ∧ GraphReader.lookupId exStore "animal" = some 1) ∧
    ((∀ p ∈ exStore.vertices,
        (p.2 ∈ (NbhdResult.mk ["dog", "animal", "cat"]
            [(0, 1, some 1), (1, 0, some 1), (2, 1, some 1)]).labels ↔
          p.1 ∈ GraphReader.candidateIds exStore 1)) ∧
      (NbhdResult.mk ["dog", "animal", "cat"]
          [(0, 1, some 1), (1, 0, some 1), (2, 1, some 1)]).entries.length =
        (GraphReader.selEdges exStore (GraphReader.candidateIds exStore 1)).length ∧
      (∀ t ∈ (NbhdResult.mk ["dog", "animal", "cat"]
          [(0, 1, some 1), (1, 0, some 1), (2, 1, some 1)]).entries,
        t.2.2 = some 1) ∧
      ((NbhdResult.mk ["dog", "animal", "cat"]
          [(0, 1, some 1), (1, 0, some 1), (2, 1, some 1)]).entries.map
          (fun t => (t.1, t.2.1))).Nodup) :=
  ⟨⟨by decide, by decide⟩,
   neighbourhood_method1_full_ego exStore "animal" none 1
     (NbhdResult.mk ["dog", "animal", "cat"]
       [(0, 1, some 1), (1, 0, some 1), (2, 1, some 1)])
     (by decide) (by decide) (by rfl)⟩

/-! ## C7 — output contract -/

/-- C7: for any successful neighbourhood query (any method in {1,2,3}),
the returned pair is consistently indexed over the dense range 0..n-1:
every stored matrix entry's coordinates are below the label count, and
the labels at an entry's coordinates are exactly the values of the two
endpoints of a persisted edge — the structures expose positions and
word strings, with the correspondence to global vertex ids internal to
the store. -/
theorem neighbourhood_output_contract (s : Store) (value : String)
    (method : Nat) (f : Option (Nat → ℚ)) (w : Nat) (r : NbhdResult)
    (hWF : s.WF) (hw : GraphReader.lookupId s value = some w)
    (hm : method = 1 ∨ method = 2 ∨ method = 3)
    (hr : GraphReader.neighbourhood s value method f = Except.ok r) :
    ∀ t ∈ r.entries, t.1 < r.labels.length ∧ t.2.1 < r.labels.length ∧
      ∃ e ∈ s.edges, r.labels[t.1]? = GraphReader.valueOf s e.1 ∧
        r.labels[t.2.1]? = GraphReader.valueOf s e.2 := by
  obtain ⟨hids, hvals, hedges, hclosed⟩ := hWF
  have hok := neighbourhood_ok_eq s value method f w hw hm
  rw [hok] at hr
  have hr' : r = GraphReader.mkResult s (GraphReader.selectedIds s w method) method f :=
    (Except.ok.inj hr).symm
  subst hr'
  intro t ht
  dsimp only [GraphReader.mkResult] at ht ⊢
  rcases List.mem_map.mp ht with ⟨e, he, rfl⟩
  have hmem := selEdges_endpoints_mem s _ hclosed he
  have hlen : ((GraphReader.selVerts s (GraphReader.selectedIds s w method)).map
      Prod.fst).length =
      ((GraphReader.selVerts s (GraphReader.selectedIds s w method)).map
      Prod.snd).length := by
    rw [List.length_map, List.length_map]
  refine ⟨?_, ?_, e, (mem_selEdges s _).mp he |>.1, ?_, ?_⟩
  · rw [← hlen]
    exact List.indexOf_lt_length.mpr hmem.1
  · rw [← hlen]
    exact List.indexOf_lt_length.mpr hmem.2
  · exact labels_getElem_indexOf s _ hids hmem.1
  · exact labels_getElem_indexOf s _ hids hmem.2

/-- Witness for C7 on the example store, method 2. -/
theorem neighbourhood_output_contract_witness :
    (exStore.WF ∧ GraphReader.lookupId exStore "animal" = some 1) ∧
    (∀ t ∈ (NbhdResult.mk ["dog", "animal"]
        [(0, 1, some 1), (1, 0, some 1)]).entries,
      t.1 < (NbhdResult.mk ["dog", "animal"]
        [(0, 1, some 1), (1, 0, some 1)]).labels.length ∧
      t.2.1 < (NbhdResult.mk ["dog", "animal"]
        [(0, 1, some 1), (1, 0, some 1)]).labels.length ∧
      ∃ e ∈ exStore.edges,
        (NbhdResult.mk ["dog", "animal"]
          [(0, 1, some 1), (1, 0, some 1)]).labels[t.1]? =
            GraphReader.valueOf exStore e.1 ∧
        (NbhdResult.mk ["dog", "animal"]
          [(0, 1, some 1), (1, 0, some 1)]).labels[t.2.1]? =
            GraphReader.valueOf exStore e.2) :=
  ⟨⟨by decide, by decide⟩,
   neighbourhood_output_contract exStore "animal" 2 none 1
     (NbhdResult.mk ["dog", "animal"] [(0, 1, some 1), (1, 0, some 1)])
     (by decide) (by decide) (Or.inr (Or.inl rfl)) (by rfl)⟩

/-! ## C2 — method 3 weights -/

/-- C2: method 3 keeps the full candidate set and weights each selected
edge `(i → j)` by `1 / f(globalIndegree(j))`, where the indegree is
global — all persisted edges with target `j`, sources not restricted to
the candidate set — and `f` is the identity when no transform is
supplied (`applyTransform`); the hypothesis `hnz` is the caller
obligation that the transform is nonzero on the indegrees of edge
targets. -/
theorem neighbourhood_method3_weights (s : Store) (value : String)
    (f : Option (Nat → ℚ)) (w : Nat) (r : NbhdResult)
    (hWF : s.WF) (hw : GraphReader.lookupId s value = some w)
    (hr : GraphReader.neighbourhood s value 3 f = Except.ok r)
    (hnz : ∀ e ∈ s.edges, applyTransform f (GraphReader.indegreeAll s e.2) ≠ 0) :
    r.entries.length = (GraphReader.selEdges s (GraphReader.candidateIds s w)).length ∧
    ∀ t ∈ r.entries, ∃ e ∈ s.edges,
      e.1 ∈ GraphReader.candidateIds s w ∧ e.2 ∈ GraphReader.candidateIds s w ∧
      t.2.2 = some (1 / applyTransform f (GraphReader.indegreeAll s e.2)) := by
  have hok := neighbourhood_ok_eq s value 3 f w hw (Or.inr (Or.inr rfl))
  rw [hok] at hr
  have hr' : r = GraphReader.mkResult s (GraphReader.selectedIds s w 3) 3 f :=
    (Except.ok.inj hr).symm
  subst hr'
  have hview : GraphReader.selectedIds s w 3 = GraphReader.candidateIds s w := by
    unfold GraphReader.selectedIds
    simp
  rw [hview]
  dsimp only [GraphReader.mkResult]
  refine ⟨List.length_map _ _, ?_⟩
  intro t ht
  rcases List.mem_map.mp ht with ⟨e, he, rfl⟩
  rcases (mem_selEdges s _).mp he with ⟨heE, h1, h2⟩
  refine ⟨e, heE, h1, h2, ?_⟩
  show GraphReader.edgeWeight s (GraphReader.candidateIds s w) 3 f e = _
  unfold GraphReader.edgeWeight
  rw [if_pos rfl, countLookup_eq s _ heE h2]
  show (if applyTransform f (GraphReader.indegreeAll s e.2) = 0 then (none : Option ℚ)
      else some (1 / applyTransform f (GraphReader.indegreeAll s e.2))) =
    some (1 / applyTransform f (GraphReader.indegreeAll s e.2))
  rw [if_neg (hnz e heE)]

/-- Witness for C2 on the example store with the default transform:
weights 1/2, 1/1, 1/2 for targets of global indegree 2, 1, 2. -/
theorem neighbourhood_method3_weights_witness :
    (exStore.WF ∧ GraphReader.lookupId exStore "animal" = some 1 ∧
      (∀ e ∈ exStore.edges,
        applyTransform none (GraphReader.indegreeAll exStore e.2) ≠ 0)) ∧
    ((NbhdResult.mk ["dog", "animal", "cat"]
        [(0, 1, some ((1:ℚ) / ((2:Nat):ℚ))), (1, 0, some ((1:ℚ) / ((1:Nat):ℚ))),
         (2, 1, some ((1:ℚ) / ((2:Nat):ℚ)))]).entries.length =
      (GraphReader.selEdges exStore (GraphReader.candidateIds exStore 1)).length ∧
    ∀ t ∈ (NbhdResult.mk ["dog", "animal", "cat"]
        [(0, 1, some ((1:ℚ) / ((2:Nat):ℚ))), (1, 0, some ((1:ℚ) / ((1:Nat):ℚ))),
         (2, 1, some ((1:ℚ) / ((2:Nat):ℚ)))]).entries,
      ∃ e ∈ exStore.edges,
        e.1 ∈ GraphReader.candidateIds exStore 1 ∧
        e.2 ∈ GraphReader.candidateIds exStore 1 ∧
        t.2.2 = some (1 / applyTransform none (GraphReader.indegreeAll exStore e.2))) :=
  ⟨⟨by decide, by decide, by
      intro e he
      fin_cases he <;> simp [applyTransform, GraphReader.indegreeAll, exStore]⟩,
   neighbourhood_method3_weights exStore "animal" none 1
     (NbhdResult.mk ["dog", "animal", "cat"]
       [(0, 1, some ((1:ℚ) / ((2:Nat):ℚ))), (1, 0, some ((1:ℚ) / ((1:Nat):ℚ))),
        (2, 1, some ((1:ℚ) / ((2:Nat):ℚ)))])
     (by decide) (by decide) (by rfl)
     (by
      intro e he
      fin_cases he <;> simp [applyTransform, GraphReader.indegreeAll, exStore])⟩

/-! ## C10 — default-transform weights are safe -/

/-- C10: with the default transform, method 3 never divides by zero:
every selected edge's target is a target of at least one persisted edge
(itself), so its global indegree is ≥ 1 and the edge's stored weight is
a well-defined rational in (0, 1]. -/
theorem neighbourhood_method3_default_weights_safe (s : Store) (value : String)
    (w : Nat) (r : NbhdResult) (hWF : s.WF)
    (hw : GraphReader.lookupId s value = some w)
    (hr : GraphReader.neighbourhood s value 3 none = Except.ok r) :
    ∀ t ∈ r.entries, ∃ q : ℚ, t.2.2 = some q ∧ 0 < q ∧ q ≤ 1 := by
  have hok := neighbourhood_ok_eq s value 3 none w hw (Or.inr (Or.inr rfl))
  rw [hok] at hr
  have hr' : r = GraphReader.mkResult s (GraphReader.selectedIds s w 3) 3 none :=
    (Except.ok.inj hr).symm
  subst hr'
  intro t ht
  dsimp only [GraphReader.mkResult] at ht
  rcases List.mem_map.mp ht with ⟨e, he, rfl⟩
  rcases (mem_selEdges s _).mp he with ⟨heE, _, h2⟩
  have hpos : 1 ≤ GraphReader.indegreeAll s e.2 := by
    unfold GraphReader.indegreeAll
    have hmem : e ∈ s.edges.filter (fun e' => e'.2 == e.2) :=
      List.mem_filter.mpr ⟨heE, by simp⟩
    have h := List.length_pos.mpr (List.ne_nil_of_mem hmem)
    omega
  have hq : (0:ℚ) < (GraphReader.indegreeAll s e.2 : ℚ) := by
    exact_mod_cast Nat.lt_of_lt_of_le Nat.zero_lt_one hpos
  refine ⟨1 / (GraphReader.indegreeAll s e.2 : ℚ), ?_, ?_, ?_⟩
  · show GraphReader.edgeWeight s (GraphReader.selectedIds s w 3) 3 none e = _
    unfold GraphReader.edgeWeight
    rw [if_pos rfl, countLookup_eq s _ heE h2]
    have hne : applyTransform none (GraphReader.indegreeAll s e.2) ≠ 0 := by
      unfold applyTransform
      exact ne_of_gt hq
    show (if applyTransform none (GraphReader.indegreeAll s e.2) = 0 then (none : Option ℚ)
        else some (1 / applyTransform none (GraphReader.indegreeAll s e.2))) =
      some (1 / (GraphReader.indegreeAll s e.2 : ℚ))
    rw [if_neg hne]
    rfl
  · exact div_pos one_pos hq
  · rw [div_le_one hq]
    exact_mod_cast hpos

/-- Witness for C10 on the example store. -/
theorem neighbourhood_method3_default_weights_safe_witness :
    (exStore.WF ∧ GraphReader.lookupId exStore "animal" = some 1) ∧
    (∀ t ∈ (NbhdResult.mk ["dog", "animal", "cat"]
        [(0, 1, some ((1:ℚ) / ((2:Nat):ℚ))), (1, 0, some ((1:ℚ) / ((1:Nat):ℚ))),
         (2, 1, some ((1:ℚ) / ((2:Nat):ℚ)))]).entries,
      ∃ q : ℚ, t.2.2 = some q ∧ 0 < q ∧ q ≤ 1) :=
  ⟨⟨by decide, by decide⟩,
   neighbourhood_method3_default_weights_safe exStore "animal" 1
     (NbhdResult.mk ["dog", "animal", "cat"]
       [(0, 1, some ((1:ℚ) / ((2:Nat):ℚ))), (1, 0, some ((1:ℚ) / ((1:Nat):ℚ))),
        (2, 1, some ((1:ℚ) / ((2:Nat):ℚ)))])
     (by decide) (by decide) (by rfl)⟩

/-! ## C4 — save -/

/-- C4: for distinct labels, `save` persists exactly the given labels as
vertices with ids 0..n-1 assigned by list position, and persists as
edges exactly the images of the adjacency-map pairs whose both
endpoints occur among the labels — a pair with an endpoint outside the
label list is silently dropped, so the saved edge set is the induced
subgraph over the supplied vertex list. -/
theorem save_induced_subgraph (adj : List (String × List String))
    (labels : List String) (hl : labels.Nodup) :
    ((GraphWriter.save adj labels).vertices.map Prod.fst =
      List.range labels.length) ∧
    ((GraphWriter.save adj labels).vertices.map Prod.snd = labels) ∧
    (∀ i j : Nat, (i, j) ∈ (GraphWriter.save adj labels).edges ↔
      ∃ a b, (a, b) ∈ GraphWriter.adjacencyPairs adj ∧
        labels[i]? = some a ∧ labels[j]? = some b) := by
  refine ⟨List.enum_map_fst labels, List.enum_map_snd labels, ?_⟩
  intro i j
  constructor
  · intro h
    rcases List.mem_map.mp h with ⟨p, hp, heq⟩
    rcases List.mem_filter.mp hp with ⟨hpairs, hcond⟩
    rw [Bool.and_eq_true] at hcond
    have hp1 : p.1 ∈ labels := of_decide_eq_true hcond.1
    have hp2 : p.2 ∈ labels := of_decide_eq_true hcond.2
    have hi : i = labels.indexOf p.1 := (congrArg Prod.fst heq).symm
    have hj : j = labels.indexOf p.2 := (congrArg Prod.snd heq).symm
    refine ⟨p.1, p.2, by simpa using hpairs, ?_, ?_⟩
    · rw [hi, List.getElem?_eq_getElem (List.indexOf_lt_length.mpr hp1),
        List.getElem_indexOf]
    · rw [hj, List.getElem?_eq_getElem (List.indexOf_lt_length.mpr hp2),
        List.getElem_indexOf]
  · rintro ⟨a, b, hab, hia, hjb⟩
    rcases List.getElem?_eq_some_iff.mp hia with ⟨hi, hia'⟩
    rcases List.getElem?_eq_some_iff.mp hjb with ⟨hj, hjb'⟩
    have ha : a ∈ labels := hia' ▸ List.getElem_mem hi
    have hb : b ∈ labels := hjb' ▸ List.getElem_mem hj
    have hifix : labels.indexOf a = i := by
      rw [← hia']
      exact List.indexOf_getElem hl i hi
    have hjfix : labels.indexOf b = j := by
      rw [← hjb']
      exact List.indexOf_getElem hl j hj
    have hmem : (a, b) ∈ (GraphWriter.adjacencyPairs adj).filter
        (fun p => decide (p.1 ∈ labels) && decide (p.2 ∈ labels)) :=
      List.mem_filter.mpr ⟨hab, by
        rw [Bool.and_eq_true]
        exact ⟨decide_eq_true ha, decide_eq_true hb⟩⟩
    have hme : (labels.indexOf a, labels.indexOf b) ∈
        (GraphWriter.save adj labels).edges :=
      List.mem_map.mpr ⟨(a, b), hmem, rfl⟩
    rw [show (labels.indexOf a, labels.indexOf b) = (i, j) by
      rw [hifix, hjfix]] at hme
    exact hme

/-- Witness for C4: saving the example adjacency map over the labels
[dog, animal, cat]; the reference "zebra" has no vertex and its pair is
dropped. -/
theorem save_induced_subgraph_witness :
    (["dog", "animal", "cat"] : List String).Nodup ∧
    (((GraphWriter.save exAdj ["dog", "animal", "cat"]).vertices.map Prod.fst =
        List.range (["dog", "animal", "cat"] : List String).length) ∧
      ((GraphWriter.save exAdj ["dog", "animal", "cat"]).vertices.map Prod.snd =
        ["dog", "animal", "cat"]) ∧
      (∀ i j : Nat,
        (i, j) ∈ (GraphWriter.save exAdj ["dog", "animal", "cat"]).edges ↔
          ∃ a b, (a, b) ∈ GraphWriter.adjacencyPairs exAdj ∧
            (["dog", "animal", "cat"] : List String)[i]? = some a ∧
            (["dog", "animal", "cat"] : List String)[j]? = some b)) :=
  ⟨by decide, save_induced_subgraph exAdj ["dog", "animal", "cat"] (by decide)⟩
